import Mathlib

/-!
Verification development for the Zing store reconciliation engine and
selected helper functions.

The reconciliation engine (Diff Computer, Conflict Resolver, Structure
Syncer, Unit Syncer and the `update` orchestration) is exercised by the
repository's test fixtures but its implementation module is not part of
the source excerpt, so the definitions below are modelled from the
specification document.  The permission helpers
(`check_user_permission`, `check_permission`) and `get_change_str` are
translated directly from `pootle/apps/pootle_app/models/permissions.py`
and `pootle/apps/pootle_store/util.py`.
-/

namespace Zing

/-- Character-list representation of the textual payloads and identity
hashes that flow through the engine. -/
abbrev Str := List Char

/-- Modelled from the spec: lifecycle/content state of a translation
unit (untranslated / fuzzy / translated / obsolete). -/
inductive UnitState where
  | untranslated
  | fuzzy
  | translated
  | obsolete
deriving DecidableEq, Repr

/-- Modelled from the spec: a persisted translation unit record as
supplied by the persistence layer: identity hash, source text, target
text, state, revision and ordering index. -/
structure Unit where
  uid : Str
  source : Str
  target : Str
  state : UnitState
  revision : Nat
  index : Nat
deriving DecidableEq, Repr

/-- Modelled from the spec: a unit record parsed from an incoming file:
identity hash, source, target and a fuzzy hint, but no revision and no
index. -/
structure FileUnit where
  uid : Str
  source : Str
  target : Str
  fuzzy : Bool
deriving DecidableEq, Repr

/-- Modelled from the spec: parse state of a store
(unparsed / parsing / parsed / error). -/
inductive StoreState where
  | unparsed
  | parsing
  | parsed
  | errorState
deriving DecidableEq, Repr

/-- Modelled from the spec: a store is an ordered collection of units
plus its lifecycle state. -/
structure Store where
  units : List Unit
  state : StoreState
deriving DecidableEq, Repr

/-- Modelled from the spec: error taxonomy of the engine. -/
inductive StoreError where
  | invalidStoreState
  | parseError
  | missingUnit
deriving DecidableEq, Repr

/-- Modelled from the spec: the ephemeral output of the Diff Computer:
obsolete unit ids (DB order), new unit specs (file order) and matched
common pairs carrying the DB unit (with its current revision) next to
the file unit. -/
structure DiffResult where
  obsolete_ids : List Str
  new_units : List FileUnit
  common : List (Unit × FileUnit)
deriving DecidableEq, Repr

/-- Modelled from the spec: the Diff Computer.  Units are matched 1:1 by
identity hash; unmatched DB units are candidates for obsoletion (DB
order), unmatched file units are candidates for creation (file order);
matched pairs carry the DB unit so the Conflict Resolver can read its
revision.  `baseline_revision` is carried along unused by the
partitioning itself. -/
def compute_diff (db_units : List Unit) (file_units : List FileUnit)
    (baseline_revision : Int) : DiffResult :=
  let _ := baseline_revision
  let dbIds := db_units.map (·.uid)
  let fileIds := file_units.map (·.uid)
  { obsolete_ids := (db_units.filter (fun u => u.uid ∉ fileIds)).map (·.uid)
    new_units := file_units.filter (fun f => f.uid ∉ dbIds)
    common := db_units.filterMap
      (fun u => (file_units.find? (fun f => f.uid = u.uid)).map (fun f => (u, f))) }

/-- Modelled from the spec: per-unit decision of the Conflict Resolver. -/
inductive ResolveAction where
  | applyIncoming
  | keepDb
deriving DecidableEq, Repr

/-- Modelled from the spec: a DB unit whose revision is greater than the
baseline wins (skip incoming content); otherwise the incoming file
content is authoritative. -/
def resolve_pair (baseline_revision : Int) (u : Unit) : ResolveAction :=
  if (u.revision : Int) ≤ baseline_revision then .applyIncoming else .keepDb

/-- Modelled from the spec: the Conflict Resolver applied to all matched
common pairs. -/
def resolve (common_pairs : List (Unit × FileUnit)) (baseline_revision : Int) :
    List (Unit × FileUnit × ResolveAction) :=
  common_pairs.map (fun p => (p.1, p.2, resolve_pair baseline_revision p.1))

/-- Modelled from the spec: the unit state derived during content
application from whether the target is non-empty and the fuzzy flag of
the incoming unit (the spec leaves the precise derivation open; this is
the documented pure function of (new target, fuzzy hint)). -/
def derive_state (target : Str) (fuzzy : Bool) : UnitState :=
  if target = [] then .untranslated
  else if fuzzy then .fuzzy
  else .translated

/-- Modelled from the spec: soft-delete of a unit (state becomes
obsolete, everything else is kept). -/
def obsolete_unit (u : Unit) : Unit :=
  { u with state := .obsolete }

/-- Modelled from the spec: mark every unit whose id is in
`obsolete_ids` as obsolete; reports whether any unit actually changed
state. -/
def mark_obsolete (units : List Unit) (obsolete_ids : List Str) :
    List Unit × Bool :=
  (units.map (fun u =>
      if u.uid ∈ obsolete_ids ∧ u.state ≠ UnitState.obsolete then obsolete_unit u else u),
   decide (∃ u ∈ units, u.uid ∈ obsolete_ids ∧ u.state ≠ UnitState.obsolete))

/-- Modelled from the spec: the next available index in a store (current
max index + 1; 0 for an empty store). -/
def next_index (units : List Unit) : Nat :=
  units.foldl (fun a u => max a (u.index + 1)) 0

/-- Modelled from the spec: create a unit per new spec, assigning
monotonically increasing indices starting at `start_index` and fresh
revisions obtained from the global sequence (counter + 1, counter + 2,
...); returns the created units and the advanced counter. -/
def create_units : List FileUnit → Nat → Nat → List Unit × Nat
  | [], _, counter => ([], counter)
  | f :: rest, start_index, counter =>
      let u : Unit :=
        { uid := f.uid, source := f.source, target := f.target,
          state := derive_state f.target f.fuzzy,
          revision := counter + 1, index := start_index }
      let r := create_units rest (start_index + 1) (counter + 1)
      (u :: r.1, r.2)

/-- Modelled from the spec: non-conservative mode rewrites the index of
every existing unit matched by the file to its position in file order. -/
def reorder_units (units : List Unit) (file_order : List Str) : List Unit :=
  units.map (fun u =>
    match file_order.findIdx? (fun s => s = u.uid) with
    | some i => { u with index := i }
    | none => u)

/-- Modelled from the spec: the Structure Syncer.  Fails with
`invalidStoreState` when the store is not parsed; unless `skip_missing`
is set, fails with `missingUnit` when an obsolete id has no unit; marks
obsolete units, optionally (non-conservative mode) reorders common
units to file order, then creates the new units with fresh indices and
revisions.  Returns the new store, the advanced revision counter and
whether any structural change occurred. -/
def apply_structure (store : Store) (obsolete_ids : List Str)
    (new_unit_specs : List FileUnit) (conservative : Bool)
    (skip_missing : Bool) (file_order : List Str) (counter : Nat) :
    Except StoreError (Store × Nat × Bool) :=
  if store.state ≠ StoreState.parsed then .error .invalidStoreState
  else if skip_missing = false ∧ ∃ i ∈ obsolete_ids, ∀ u ∈ store.units, u.uid ≠ i then
    .error .missingUnit
  else
    let m := mark_obsolete store.units obsolete_ids
    let units2 := if conservative then m.1 else reorder_units m.1 file_order
    let cr := create_units new_unit_specs (next_index units2) counter
    .ok (⟨units2 ++ cr.1, .parsed⟩, cr.2,
         m.2 || decide (units2 ≠ m.1) || decide (cr.1 ≠ []))

/-- Modelled from the spec: content application to a single common unit.
If the incoming content is byte-identical to the current DB content no
write occurs; otherwise target and state are rewritten and the unit gets
a fresh revision from the global sequence. -/
def sync_unit (counter : Nat) (u : Unit) (f : FileUnit) : Unit × Nat × Bool :=
  if u.target = f.target then (u, counter, false)
  else ({ u with
            target := f.target
            state := derive_state f.target f.fuzzy
            revision := counter + 1 },
        counter + 1, true)

/-- Modelled from the spec: the Unit Syncer.  Walks the store's units;
a unit with a matching resolved-to-incoming entry gets the incoming
content applied (subject to the byte-identical check); returns the new
unit list, the advanced counter and `count_changed`. -/
def apply_content : List Unit → List (Unit × FileUnit × ResolveAction) → Nat →
    List Unit × Nat × Nat
  | [], _, counter => ([], counter, 0)
  | u :: us, resolved, counter =>
      match resolved.find?
          (fun r => r.2.2 = ResolveAction.applyIncoming ∧ r.1.uid = u.uid) with
      | some r =>
          let s := sync_unit counter u r.2.1
          let rest := apply_content us resolved s.2.1
          (s.1 :: rest.1, rest.2.1, (if s.2.2 then 1 else 0) + rest.2.2)
      | none =>
          let rest := apply_content us resolved counter
          (u :: rest.1, rest.2.1, rest.2.2)

/-- Modelled from the spec: the `update` orchestration
(update-from-file-into-db): Diff Computer, Conflict Resolver (skipped
when `overwrite` forces the incoming side), Structure Syncer, Unit
Syncer.  Valid from the parsed or unparsed lifecycle states (unparsed
transitions to parsed); returns the new store, the advanced revision
counter and whether anything changed.  The audit-log side channel and
file parsing are external collaborators and are not modelled here:
`update` consumes already-parsed file unit records. -/
def update (store : Store) (file_units : List FileUnit)
    (store_revision : Int) (conservative : Bool) (overwrite : Bool)
    (skip_missing : Bool) (counter : Nat) :
    Except StoreError (Store × Nat × Bool) :=
  if store.state = StoreState.parsing ∨ store.state = StoreState.errorState then
    .error .invalidStoreState
  else
    let d := compute_diff store.units file_units store_revision
    let resolved :=
      if overwrite then d.common.map (fun p => (p.1, p.2, ResolveAction.applyIncoming))
      else resolve d.common store_revision
    match apply_structure ⟨store.units, .parsed⟩ d.obsolete_ids d.new_units
        conservative skip_missing (file_units.map (·.uid)) counter with
    | .error e => .error e
    | .ok st => -- st : Store × Nat × Bool
        let r := apply_content st.1.units resolved st.2.1
        .ok (⟨r.1, .parsed⟩, r.2.1, st.2.2 || decide (0 < r.2.2))

/-- Modelled from the spec: helper of the file parser model.  Splits a
byte (character) sequence into newline-terminated lines, accumulating
the current line in `cur`; a trailing unterminated fragment makes the
input ill-formed. -/
def splitLinesGo : Str → Str → Option (List Str)
  | [], cur => if cur = [] then some [] else none
  | c :: rest, cur =>
      if c = '\n' then (splitLinesGo rest []).map (fun ls => cur :: ls)
      else splitLinesGo rest (cur ++ [c])

/-- Modelled from the spec: helper of the file parser model.  Groups the
lines of a well-formed file into unit records: a fuzzy-flag line (`f` or
`n`), a source line and a target line per unit.  The identity hash of a
parsed unit is derived from its source content. -/
def groupUnits : List Str → Option (List FileUnit)
  | [] => some []
  | fl :: src :: tgt :: rest =>
      (if fl = ['f'] then some true else if fl = ['n'] then some false else none).bind
        (fun fz => (groupUnits rest).map
          (fun us => { uid := src, source := src, target := tgt, fuzzy := fz } :: us))
  | _ => none

/-- Modelled from the spec: the inverse serializer of the external file
parser, which converts unit records back into raw file bytes.  The spec
treats the exact PO grammar as an opaque bijection; this model uses a
minimal line-oriented grammar: per unit a fuzzy-flag line, a source
line and a target line, each newline-terminated. -/
def serialize (units : List FileUnit) : Str :=
  units.flatMap (fun u =>
    (if u.fuzzy then 'f' else 'n') :: '\n' ::
      (u.source ++ '\n' :: (u.target ++ ['\n'])))

/-- Modelled from the spec: the external file parser, converting raw
file bytes into an ordered list of unit records (or failing on
ill-formed bytes). -/
def deserialize (bytes : Str) : Option (List FileUnit) :=
  (splitLinesGo bytes []).bind groupUnits

end Zing

namespace Zing

/-- A user as seen by the permission helpers: superuser flag,
authentication state and username (`pootle/apps/pootle_app/models/permissions.py`). -/
structure User where
  is_superuser : Bool
  is_authenticated : Bool
  username : String
deriving DecidableEq, Repr

/-- Embedding of `get_matching_permissions`.  The stored `PermissionSet`
lookup (`get_permissions_by_username`, a database query behind a cache)
is external state, modelled as an explicit environment `lookup` from
(username, directory pootle path) to the optional permission-codename
set. -/
def get_matching_permissions (lookup : String → String → Option (List String))
    (user : User) (directory : String) : Option (List String) :=
  if user.is_authenticated then
    match lookup user.username directory with
    | some permissions => some permissions
    | none =>
        match lookup "default" directory with
        | some permissions => some permissions
        | none => lookup "nobody" directory
  else lookup "nobody" directory

/-- Embedding of `check_user_permission`: superusers pass immediately;
otherwise the matching permissions must contain `administrate` or the
requested codename (an absent permission set is modelled as the empty
set). -/
def check_user_permission (lookup : String → String → Option (List String))
    (user : User) (permission_codename : String) (directory : String) : Bool :=
  if user.is_superuser then true
  else
    let permissions := (get_matching_permissions lookup user directory).getD []
    decide ("administrate" ∈ permissions ∨ permission_codename ∈ permissions)

/-- A request as consumed by `check_permission`: the requesting user,
the precomputed `request.permissions` codenames, and the optional
`translation_project` / `project` path objects (identified by name). -/
structure Request where
  user : User
  permissions : List String
  translation_project : Option String
  project : Option String
deriving DecidableEq, Repr

/-- Embedding of `check_permission`: superusers pass immediately; the
`view` codename is project-centric and delegates to
`is_accessible_by` (modelled as the environment `accessible`); any
other codename is looked up in `request.permissions`. -/
def check_permission (accessible : String → User → Bool)
    (permission_codename : String) (request : Request) : Bool :=
  if request.user.is_superuser then true
  else if permission_codename = "view" then
    let path_obj :=
      match request.translation_project with
      | some tp => some tp
      | none => request.project
    match path_obj with
    | none => true
    | some p => accessible p request.user
  else
    decide ("administrate" ∈ request.permissions ∨
            permission_codename ∈ request.permissions)

/-- Embedding of `get_change_str` from `pootle/apps/pootle_store/util.py`:
formats the positive entries of a changes dictionary (modelled as an
association list in iteration order) as comma-joined "key count" items,
falling back to the literal string "no changed". -/
def get_change_str (changes : List (String × Int)) : String :=
  let res := (changes.filter (fun kv => kv.2 > 0)).map
    (fun kv => kv.1 ++ " " ++ toString kv.2)
  if res ≠ [] then String.intercalate ", " res
  else "no changed"

end Zing

instance {e a : Type} [DecidableEq e] [DecidableEq a] : DecidableEq (Except e a)
  | .ok x, .ok y => if h : x = y then .isTrue (by simp [h]) else .isFalse (by simp [h])
  | .error x, .error y =>
      if h : x = y then .isTrue (by simp [h]) else .isFalse (by simp [h])
  | .ok _, .error _ => .isFalse (by simp)
  | .error _, .ok _ => .isFalse (by simp)

namespace Zing

lemma obsolete_ids_mem {db : List Unit} {F : List FileUnit} {B : Int} {x : Str} :
    x ∈ (compute_diff db F B).obsolete_ids ↔
      ∃ u ∈ db, u.uid = x ∧ x ∉ F.map (·.uid) := by
  simp only [compute_diff, List.mem_map, List.mem_filter, decide_not,
    Bool.not_eq_eq_eq_not, Bool.not_true, decide_eq_false_iff_not]
  constructor
  · rintro ⟨u, ⟨hu, hnm⟩, rfl⟩
    exact ⟨u, hu, rfl, hnm⟩
  · rintro ⟨u, hu, rfl, hnm⟩
    exact ⟨u, ⟨hu, hnm⟩, rfl⟩

lemma common_mem {db : List Unit} {F : List FileUnit} {B : Int}
    {p : Unit × FileUnit} :
    p ∈ (compute_diff db F B).common ↔
      p.1 ∈ db ∧ F.find? (fun f => f.uid = p.1.uid) = some p.2 := by
  simp only [compute_diff, List.mem_filterMap, Option.map_eq_some']
  constructor
  · rintro ⟨u, hu, f, hf, rfl⟩
    exact ⟨hu, hf⟩
  · rintro ⟨h1, h2⟩
    exact ⟨p.1, h1, p.2, h2, rfl⟩

lemma new_units_mem {db : List Unit} {F : List FileUnit} {B : Int}
    {f : FileUnit} :
    f ∈ (compute_diff db F B).new_units ↔ f ∈ F ∧ f.uid ∉ db.map (·.uid) := by
  simp only [compute_diff, List.mem_filter, decide_not, Bool.not_eq_eq_eq_not,
    Bool.not_true, decide_eq_false_iff_not]

lemma common_pair_uid {db : List Unit} {F : List FileUnit} {B : Int}
    {p : Unit × FileUnit} (h : p ∈ (compute_diff db F B).common) :
    p.2.uid = p.1.uid := by
  have h2 := (common_mem.mp h).2
  have := List.find?_some h2
  simpa using this

lemma find?_uid_unique {F : List FileUnit} (hF : (F.map (·.uid)).Nodup)
    {f : FileUnit} (hf : f ∈ F) :
    F.find? (fun g => g.uid = f.uid) = some f := by
  induction F with
  | nil => cases hf
  | cons g F ih =>
      simp only [List.map_cons, List.nodup_cons] at hF
      rcases List.mem_cons.mp hf with rfl | hf'
      · simp [List.find?_cons]
      · rw [List.find?_cons]
        have hne : g.uid ≠ f.uid := by
          intro he
          exact hF.1 (he ▸ List.mem_map.mpr ⟨f, hf', rfl⟩)
        simp only [decide_eq_false hne]
        exact ih hF.2 hf'

lemma common_fst_sublist (db : List Unit) (F : List FileUnit) (B : Int) :
    List.Sublist ((compute_diff db F B).common.map Prod.fst) db := by
  simp only [compute_diff]
  induction db with
  | nil => simp
  | cons u db ih =>
      rw [List.filterMap_cons]
      cases h : (F.find? (fun f => f.uid = u.uid)).map (fun f => (u, f)) with
      | none => exact (ih).trans (List.sublist_cons_self u db)
      | some p =>
          rcases Option.map_eq_some'.mp h with ⟨f, _, rfl⟩
          simpa using List.Sublist.cons₂ u ih

/-- C6: the Structure Syncer fails with `InvalidStoreState` on every
store that is not in the parsed lifecycle state, for all arguments, and
hence performs no mutation at all (the error carries no store, so the
caller's store is untouched). -/
theorem C6_invalid_store_state (store : Store) (obsolete_ids : List Str)
    (new_unit_specs : List FileUnit) (conservative skip_missing : Bool)
    (file_order : List Str) (counter : Nat)
    (h : store.state ≠ StoreState.parsed) :
    apply_structure store obsolete_ids new_unit_specs conservative
        skip_missing file_order counter = .error .invalidStoreState := by
  simp [apply_structure, h]

theorem C6_invalid_store_state_witness :
    (Store.mk [] StoreState.unparsed).state ≠ StoreState.parsed ∧
      apply_structure (Store.mk [] StoreState.unparsed) [] [] true false [] 0 =
        .error .invalidStoreState :=
  ⟨by decide,
   C6_invalid_store_state (Store.mk [] StoreState.unparsed) [] [] true false [] 0
     (by decide)⟩

/-- C8: the Diff Computer is a total pure function: in this model it is
a Lean function (no exceptions, no state), and for every input whatever
— well-formed or not — it returns a `DiffResult` whose obsolete ids,
new units and common pairs are all drawn from the inputs. -/
theorem C8_diff_pure_total (db : List Unit) (F : List FileUnit) (B : Int) :
    (∀ x ∈ (compute_diff db F B).obsolete_ids, x ∈ db.map (·.uid)) ∧
    (∀ f ∈ (compute_diff db F B).new_units, f ∈ F) ∧
    (∀ p ∈ (compute_diff db F B).common, p.1 ∈ db ∧ p.2 ∈ F) := by
  refine ⟨fun x hx => ?_, fun f hf => ?_, fun p hp => ?_⟩
  · rcases obsolete_ids_mem.mp hx with ⟨u, hu, rfl, -⟩
    exact List.mem_map.mpr ⟨u, hu, rfl⟩
  · exact (new_units_mem.mp hf).1
  · rcases common_mem.mp hp with ⟨h1, h2⟩
    exact ⟨h1, List.mem_of_find?_eq_some h2⟩

/-- C2: partition completeness of the Diff Computer: with store-scoped
identity uniqueness on both sides, every DB unit id lands in exactly
one of obsolete / common, every file unit in exactly one of new /
common, and the common pairs are a 1:1 matching by identity hash. -/
theorem C2_partition_completeness (db : List Unit) (F : List FileUnit) (B : Int)
    (hdb : (db.map (·.uid)).Nodup) (hF : (F.map (·.uid)).Nodup) :
    (∀ u ∈ db,
      (u.uid ∈ (compute_diff db F B).obsolete_ids ∧
        u.uid ∉ (compute_diff db F B).common.map (fun p => p.1.uid)) ∨
      (u.uid ∉ (compute_diff db F B).obsolete_ids ∧
        u.uid ∈ (compute_diff db F B).common.map (fun p => p.1.uid))) ∧
    (∀ f ∈ F,
      (f ∈ (compute_diff db F B).new_units ∧
        f ∉ (compute_diff db F B).common.map (fun p => p.2)) ∨
      (f ∉ (compute_diff db F B).new_units ∧
        f ∈ (compute_diff db F B).common.map (fun p => p.2))) ∧
    (∀ p ∈ (compute_diff db F B).common, p.1.uid = p.2.uid) ∧
    ((compute_diff db F B).common.map (fun p => p.1.uid)).Nodup ∧
    ((compute_diff db F B).common.map (fun p => p.2.uid)).Nodup := by
  have hfst : ∀ {x : Str},
      x ∈ (compute_diff db F B).common.map (fun p => p.1.uid) ↔
        ∃ p ∈ (compute_diff db F B).common, p.1.uid = x := by
    intro x
    simp [List.mem_map]
  have hfstN : ((compute_diff db F B).common.map (fun p => p.1.uid)).Nodup := by
    have h1 : ((compute_diff db F B).common.map (fun p => p.1.uid)) =
        (((compute_diff db F B).common.map Prod.fst).map (·.uid)) := by
      simp [List.map_map]
    rw [h1]
    exact ((common_fst_sublist db F B).map (·.uid)).nodup hdb
  refine ⟨fun u hu => ?_, fun f hf => ?_, fun p hp => (common_pair_uid hp).symm,
    hfstN, ?_⟩
  · by_cases hmem : u.uid ∈ F.map (·.uid)
    · right
      constructor
      · intro hobs
        rcases obsolete_ids_mem.mp hobs with ⟨v, -, -, hnm⟩
        exact hnm hmem
      · rcases List.mem_map.mp hmem with ⟨f, hfF, hfu⟩
        have hsome : (F.find? (fun g => g.uid = u.uid)).isSome := by
          rw [List.find?_isSome]
          exact ⟨f, hfF, by simp [hfu]⟩
        rcases Option.isSome_iff_exists.mp hsome with ⟨f0, hf0⟩
        refine hfst.mpr ⟨(u, f0), common_mem.mpr ⟨hu, hf0⟩, rfl⟩
    · left
      constructor
      · exact obsolete_ids_mem.mpr ⟨u, hu, rfl, hmem⟩
      · intro hc
        rcases hfst.mp hc with ⟨p, hp, hpx⟩
        rcases common_mem.mp hp with ⟨-, h2⟩
        have hfe := common_pair_uid hp
        have : p.2 ∈ F := List.mem_of_find?_eq_some h2
        exact hmem (List.mem_map.mpr ⟨p.2, this, by rw [hfe, hpx]⟩)
  · by_cases hmem : f.uid ∈ db.map (·.uid)
    · right
      constructor
      · intro hnew
        exact (new_units_mem.mp hnew).2 hmem
      · rcases List.mem_map.mp hmem with ⟨u, huDb, huu⟩
        have hfind : F.find? (fun g => g.uid = u.uid) = some f := by
          rw [huu]
          exact find?_uid_unique hF hf
        exact List.mem_map.mpr ⟨(u, f), common_mem.mpr ⟨huDb, hfind⟩, rfl⟩
    · left
      constructor
      · exact new_units_mem.mpr ⟨hf, hmem⟩
      · intro hc
        rcases List.mem_map.mp hc with ⟨p, hp, hp2⟩
        rcases common_mem.mp hp with ⟨h1, -⟩
        have hfe := common_pair_uid hp
        refine hmem (List.mem_map.mpr ⟨p.1, h1, ?_⟩)
        rw [← hfe, hp2]
  · have h2 : ((compute_diff db F B).common.map (fun p => p.2.uid)) =
        ((compute_diff db F B).common.map (fun p => p.1.uid)) := by
      refine List.map_congr_left (fun p hp => ?_)
      exact common_pair_uid hp
    rw [h2]
    exact hfstN

theorem C2_partition_completeness_witness :
    ((([⟨['a'], ['a'], ['x'], UnitState.translated, 3, 0⟩] : List Unit).map
        (·.uid)).Nodup ∧
      (([⟨['b'], ['b'], ['y'], false⟩] : List FileUnit).map (·.uid)).Nodup) ∧
    (∀ u ∈ ([⟨['a'], ['a'], ['x'], UnitState.translated, 3, 0⟩] : List Unit),
      (u.uid ∈ (compute_diff [⟨['a'], ['a'], ['x'], UnitState.translated, 3, 0⟩]
          [⟨['b'], ['b'], ['y'], false⟩] 0).obsolete_ids ∧
        u.uid ∉ (compute_diff [⟨['a'], ['a'], ['x'], UnitState.translated, 3, 0⟩]
          [⟨['b'], ['b'], ['y'], false⟩] 0).common.map (fun p => p.1.uid)) ∨
      (u.uid ∉ (compute_diff [⟨['a'], ['a'], ['x'], UnitState.translated, 3, 0⟩]
          [⟨['b'], ['b'], ['y'], false⟩] 0).obsolete_ids ∧
        u.uid ∈ (compute_diff [⟨['a'], ['a'], ['x'], UnitState.translated, 3, 0⟩]
          [⟨['b'], ['b'], ['y'], false⟩] 0).common.map (fun p => p.1.uid))) := by
  refine ⟨⟨by decide, by decide⟩, ?_⟩
  exact (C2_partition_completeness
    [⟨['a'], ['a'], ['x'], UnitState.translated, 3, 0⟩]
    [⟨['b'], ['b'], ['y'], false⟩] 0 (by decide) (by decide)).1

lemma create_units_counter (specs : List FileUnit) (i c : Nat) :
    (create_units specs i c).2 = c + specs.length := by
  induction specs generalizing i c with
  | nil => simp [create_units]
  | cons f rest ih =>
      simp [create_units, ih]
      omega

lemma create_units_indices (specs : List FileUnit) (i c : Nat) :
    (create_units specs i c).1.map (·.index) = List.range' i specs.length := by
  induction specs generalizing i c with
  | nil => simp [create_units]
  | cons f rest ih =>
      simp [create_units, List.range'_succ, ih]

lemma create_units_revisions (specs : List FileUnit) (i c : Nat) :
    (create_units specs i c).1.map (·.revision) =
      List.range' (c + 1) specs.length := by
  induction specs generalizing i c with
  | nil => simp [create_units]
  | cons f rest ih =>
      simp [create_units, List.range'_succ, ih]

lemma create_units_uids (specs : List FileUnit) (i c : Nat) :
    (create_units specs i c).1.map (·.uid) = specs.map (·.uid) := by
  induction specs generalizing i c with
  | nil => simp [create_units]
  | cons f rest ih =>
      simp [create_units, ih]

lemma create_units_mem {specs : List FileUnit} {i c : Nat} {v : Unit}
    (hv : v ∈ (create_units specs i c).1) :
    ∃ f ∈ specs, v.uid = f.uid ∧ v.source = f.source ∧ v.target = f.target ∧
      v.state = derive_state f.target f.fuzzy ∧ c < v.revision := by
  induction specs generalizing i c with
  | nil => simp [create_units] at hv
  | cons f rest ih =>
      simp only [create_units, List.mem_cons] at hv
      rcases hv with rfl | hv
      · exact ⟨f, List.mem_cons_self f rest, rfl, rfl, rfl, rfl, Nat.lt_succ_self c⟩
      · rcases ih hv with ⟨g, hg, h1, h2, h3, h4, h5⟩
        exact ⟨g, List.mem_cons_of_mem f hg, h1, h2, h3, h4, Nat.lt_of_succ_lt h5⟩

lemma apply_content_mono (us : List Unit)
    (R : List (Unit × FileUnit × ResolveAction)) (c : Nat) :
    c ≤ (apply_content us R c).2.1 := by
  induction us generalizing c with
  | nil => simp [apply_content]
  | cons u us ih =>
      simp only [apply_content]
      cases hf : R.find?
          (fun r => r.2.2 = ResolveAction.applyIncoming ∧ r.1.uid = u.uid) with
      | none => exact ih c
      | some r =>
          simp only [sync_unit]
          by_cases ht : u.target = r.2.1.target
          · simpa [ht] using ih c
          · simp only [if_neg ht]
            exact Nat.le_trans (Nat.le_succ c) (ih (c + 1))

lemma apply_content_uids (us : List Unit)
    (R : List (Unit × FileUnit × ResolveAction)) (c : Nat) :
    (apply_content us R c).1.map (·.uid) = us.map (·.uid) := by
  induction us generalizing c with
  | nil => simp [apply_content]
  | cons u us ih =>
      simp only [apply_content]
      cases hf : R.find?
          (fun r => r.2.2 = ResolveAction.applyIncoming ∧ r.1.uid = u.uid) with
      | none => simp [ih]
      | some r =>
          simp only [sync_unit]
          by_cases ht : u.target = r.2.1.target
          · simp [ht, ih]
          · simp [if_neg ht, ih]

lemma apply_content_mem {us : List Unit}
    {R : List (Unit × FileUnit × ResolveAction)} {c : Nat} {v : Unit}
    (hv : v ∈ (apply_content us R c).1) :
    ∃ u ∈ us, v.uid = u.uid ∧
      (v = u ∨ ∃ r ∈ R, r.2.2 = ResolveAction.applyIncoming ∧ r.1.uid = u.uid ∧
        v.source = u.source ∧ v.index = u.index ∧ v.target = r.2.1.target ∧
        v.state = derive_state r.2.1.target r.2.1.fuzzy ∧ c < v.revision) := by
  induction us generalizing c with
  | nil => simp [apply_content] at hv
  | cons u us ih =>
      simp only [apply_content] at hv
      cases hf : R.find?
          (fun r => r.2.2 = ResolveAction.applyIncoming ∧ r.1.uid = u.uid) with
      | none =>
          rw [hf] at hv
          simp only [List.mem_cons] at hv
          rcases hv with rfl | hv
          · exact ⟨v, List.mem_cons_self v us, rfl, Or.inl rfl⟩
          · rcases ih hv with ⟨w, hw, h1, h2⟩
            exact ⟨w, List.mem_cons_of_mem u hw, h1, h2⟩
      | some r =>
          rw [hf] at hv
          have hrR := List.mem_of_find?_eq_some hf
          have hrP := List.find?_some hf
          simp only [decide_eq_true_eq] at hrP
          simp only [List.mem_cons] at hv
          rcases hv with rfl | hv
          · refine ⟨u, List.mem_cons_self u us, ?_, ?_⟩
            · by_cases ht : u.target = r.2.1.target <;> simp [sync_unit, ht]
            · by_cases ht : u.target = r.2.1.target
              · left
                simp [sync_unit, ht]
              · right
                refine ⟨r, hrR, hrP.1, hrP.2, ?_, ?_, ?_, ?_, ?_⟩ <;>
                  simp [sync_unit, if_neg ht]
          · rcases ih hv with ⟨w, hw, h1, h2⟩
            refine ⟨w, List.mem_cons_of_mem u hw, h1, ?_⟩
            rcases h2 with h2 | ⟨r', hr', ha, hb, hc2, hd, he, hg, hlt⟩
            · exact Or.inl h2
            · refine Or.inr ⟨r', hr', ha, hb, hc2, hd, he, hg, ?_⟩
              refine Nat.lt_of_le_of_lt ?_ hlt
              by_cases ht : u.target = r.2.1.target <;>
                simp [sync_unit, ht]

lemma apply_content_keep {us : List Unit}
    {R : List (Unit × FileUnit × ResolveAction)} {c : Nat} {u : Unit}
    (hu : u ∈ us)
    (hno : ∀ r ∈ R, ¬(r.2.2 = ResolveAction.applyIncoming ∧ r.1.uid = u.uid)) :
    u ∈ (apply_content us R c).1 := by
  induction us generalizing c with
  | nil => cases hu
  | cons w us ih =>
      simp only [apply_content]
      rcases List.mem_cons.mp hu with rfl | hu'
      · have hf : R.find?
            (fun r => r.2.2 = ResolveAction.applyIncoming ∧ r.1.uid = u.uid) = none := by
          rw [List.find?_eq_none]
          intro r hr
          simp only [decide_eq_true_eq]
          exact hno r hr
        rw [hf]
        exact List.mem_cons_self u _
      · cases hf : R.find?
            (fun r => r.2.2 = ResolveAction.applyIncoming ∧ r.1.uid = w.uid) with
        | none => exact List.mem_cons_of_mem w (ih hu')
        | some r => exact List.mem_cons_of_mem _ (ih hu')

lemma apply_content_id {us : List Unit}
    {R : List (Unit × FileUnit × ResolveAction)} {c : Nat}
    (h : ∀ u ∈ us, ∀ r ∈ R, r.2.2 = ResolveAction.applyIncoming →
      r.1.uid = u.uid → u.target = r.2.1.target) :
    apply_content us R c = (us, c, 0) := by
  induction us generalizing c with
  | nil => simp [apply_content]
  | cons u us ih =>
      simp only [apply_content]
      cases hf : R.find?
          (fun r => r.2.2 = ResolveAction.applyIncoming ∧ r.1.uid = u.uid) with
      | none =>
          rw [ih (fun w hw => h w (List.mem_cons_of_mem u hw))]
      | some r =>
          have hrR := List.mem_of_find?_eq_some hf
          have hrP := List.find?_some hf
          simp only [decide_eq_true_eq] at hrP
          have ht := h u (List.mem_cons_self u us) r hrR hrP.1 hrP.2
          simp only [sync_unit, if_pos ht]
          rw [ih (fun w hw => h w (List.mem_cons_of_mem u hw))]
          simp

lemma apply_content_bound {us : List Unit}
    {R : List (Unit × FileUnit × ResolveAction)} {c : Nat}
    (h : ∀ u ∈ us, u.revision ≤ c) :
    ∀ v ∈ (apply_content us R c).1, v.revision ≤ (apply_content us R c).2.1 := by
  induction us generalizing c with
  | nil => simp [apply_content]
  | cons u us ih =>
      intro v hv
      simp only [apply_content] at hv ⊢
      cases hf : R.find?
          (fun r => r.2.2 = ResolveAction.applyIncoming ∧ r.1.uid = u.uid) with
      | none =>
          rw [hf] at hv
          rcases List.mem_cons.mp hv with rfl | hv'
          · exact Nat.le_trans (h v (List.mem_cons_self v us))
              (apply_content_mono us R c)
          · exact ih (fun w hw => h w (List.mem_cons_of_mem u hw)) v hv'
      | some r =>
          rw [hf] at hv
          by_cases ht : u.target = r.2.1.target
          · simp only [sync_unit, if_pos ht] at hv ⊢
            rcases List.mem_cons.mp hv with rfl | hv'
            · exact Nat.le_trans (h _ (List.mem_cons_self _ us))
                (apply_content_mono us R c)
            · exact ih (fun w hw => h w (List.mem_cons_of_mem u hw)) v hv'
          · simp only [sync_unit, if_neg ht] at hv ⊢
            rcases List.mem_cons.mp hv with rfl | hv'
            · exact apply_content_mono us R (c + 1)
            · exact ih
                (fun w hw => Nat.le_trans (h w (List.mem_cons_of_mem u hw))
                  (Nat.le_succ c)) v hv'

lemma apply_content_applied {us : List Unit}
    {R : List (Unit × FileUnit × ResolveAction)} {c : Nat} {u : Unit}
    {r : Unit × FileUnit × ResolveAction}
    (hnd : (us.map (·.uid)).Nodup) (hu : u ∈ us) (hr : r ∈ R)
    (ha : r.2.2 = ResolveAction.applyIncoming) (hb : r.1.uid = u.uid)
    (hRu : ∀ r1 ∈ R, ∀ r2 ∈ R, r1.1.uid = r2.1.uid → r1 = r2) :
    ∃ v ∈ (apply_content us R c).1, v.uid = u.uid ∧ v.target = r.2.1.target := by
  induction us generalizing c with
  | nil => cases hu
  | cons w us ih =>
      simp only [List.map_cons, List.nodup_cons] at hnd
      simp only [apply_content]
      rcases List.mem_cons.mp hu with rfl | hu'
      · have hsome : (R.find?
            (fun x => x.2.2 = ResolveAction.applyIncoming ∧ x.1.uid = u.uid)).isSome := by
          rw [List.find?_isSome]
          exact ⟨r, hr, by simp [ha, hb]⟩
        rcases Option.isSome_iff_exists.mp hsome with ⟨r', hf⟩
        rw [hf]
        have hrR' := List.mem_of_find?_eq_some hf
        have hrP' := List.find?_some hf
        simp only [decide_eq_true_eq] at hrP'
        have : r' = r := hRu r' hrR' r hr (by rw [hrP'.2, hb])
        subst this
        refine ⟨(sync_unit c u r'.2.1).1, List.mem_cons_self _ _, ?_, ?_⟩
        · simp only [sync_unit]
          by_cases ht : u.target = r'.2.1.target
          · simp [ht]
          · simp [if_neg ht]
        · simp only [sync_unit]
          by_cases ht : u.target = r'.2.1.target
          · simp [ht]
          · simp [if_neg ht]
      · cases hf : R.find?
            (fun x => x.2.2 = ResolveAction.applyIncoming ∧ x.1.uid = w.uid) with
        | none =>
            rcases ih hnd.2 hu' with ⟨v, hv, h1, h2⟩
            exact ⟨v, List.mem_cons_of_mem w hv, h1, h2⟩
        | some r0 =>
            rcases ih hnd.2 hu' with ⟨v, hv, h1, h2⟩
            exact ⟨v, List.mem_cons_of_mem _ hv, h1, h2⟩

/-- Success-path unfolding of `update` (without `overwrite` and
`skip_missing`), used only to state the equation `update_eq_steps`
below; it is not an independent model definition. -/
def update_steps (units : List Unit) (F : List FileUnit) (B : Int)
    (cons : Bool) (c : Nat) : List Unit × Nat × Bool :=
  let d := compute_diff units F B
  let R := resolve d.common B
  let m := mark_obsolete units d.obsolete_ids
  let u2 := if cons then m.1 else reorder_units m.1 (F.map (·.uid))
  let cr := create_units d.new_units (next_index u2) c
  let r := apply_content (u2 ++ cr.1) R cr.2
  (r.1, r.2.1, (m.2 || decide (u2 ≠ m.1) || decide (cr.1 ≠ [])) || decide (0 < r.2.2))

lemma update_eq_steps (store : Store) (F : List FileUnit) (B : Int)
    (cons : Bool) (c : Nat)
    (h1 : ¬(store.state = StoreState.parsing ∨ store.state = StoreState.errorState)) :
    update store F B cons false false c =
      .ok (⟨(update_steps store.units F B cons c).1, .parsed⟩,
           (update_steps store.units F B cons c).2.1,
           (update_steps store.units F B cons c).2.2) := by
  have hmiss : ¬(True ∧ ∃ i ∈ (compute_diff store.units F B).obsolete_ids,
      ∀ u ∈ store.units, u.uid ≠ i) := by
    rintro ⟨-, i, hi, hall⟩
    rcases obsolete_ids_mem.mp hi with ⟨u, hu, rfl, -⟩
    exact hall u hu rfl
  simp only [update, if_neg h1, apply_structure, update_steps]
  rw [if_neg (show ¬((Store.mk store.units StoreState.parsed).state ≠ StoreState.parsed)
        by simp)]
  rw [if_neg hmiss]
  rfl

/-- C5: updating a fresh (empty, parsed) store with baseline revision -1
and a file of two units creates exactly those two units with indices 0
and 1 and fresh revisions counter+1 and counter+2 from the global
sequence, returns changed=true and the advanced counter — for any flag
settings; and in general `create_units` assigns the next available
indices monotonically and fresh strictly increasing revisions. -/
theorem C5_fresh_store_creation (f1 f2 : FileUnit) (cons ow sk : Bool) (c : Nat) :
    update ⟨[], StoreState.parsed⟩ [f1, f2] (-1) cons ow sk c =
      .ok (⟨[⟨f1.uid, f1.source, f1.target, derive_state f1.target f1.fuzzy, c + 1, 0⟩,
             ⟨f2.uid, f2.source, f2.target, derive_state f2.target f2.fuzzy, c + 2, 1⟩],
            StoreState.parsed⟩, c + 2, true) ∧
    (∀ (specs : List FileUnit) (i c0 : Nat),
      (create_units specs i c0).1.map (·.index) = List.range' i specs.length ∧
      (create_units specs i c0).1.map (·.revision) =
        List.range' (c0 + 1) specs.length ∧
      (create_units specs i c0).2 = c0 + specs.length) := by
  refine ⟨?_, fun specs i c0 =>
    ⟨create_units_indices specs i c0, create_units_revisions specs i c0,
     create_units_counter specs i c0⟩⟩
  cases cons <;> cases ow <;> cases sk <;>
    simp [update, compute_diff, resolve, resolve_pair, apply_structure,
      mark_obsolete, reorder_units, next_index, create_units, apply_content,
      sync_unit]

lemma resolve_pair_iff {B : Int} {u : Unit} :
    resolve_pair B u = ResolveAction.applyIncoming ↔ (u.revision : Int) ≤ B := by
  unfold resolve_pair
  by_cases h : (u.revision : Int) ≤ B
  · simp [h]
  · simp [h]

lemma resolve_mem {common_pairs : List (Unit × FileUnit)} {B : Int}
    {r : Unit × FileUnit × ResolveAction} :
    r ∈ resolve common_pairs B ↔
      ∃ p ∈ common_pairs, r = (p.1, p.2, resolve_pair B p.1) := by
  simp only [resolve, List.mem_map]
  constructor
  · rintro ⟨p, hp, rfl⟩
    exact ⟨p, hp, rfl⟩
  · rintro ⟨p, hp, rfl⟩
    exact ⟨p, hp, rfl⟩

lemma nodup_uid_inj {us : List Unit} (h : (us.map (·.uid)).Nodup)
    {u v : Unit} (hu : u ∈ us) (hv : v ∈ us) (he : u.uid = v.uid) : u = v :=
  List.inj_on_of_nodup_map h hu hv he

lemma update_state_ok {store : Store} {F : List FileUnit} {B : Int}
    {cons ow sk : Bool} {c : Nat} {res : Store × Nat × Bool}
    (hok : update store F B cons ow sk c = .ok res) :
    ¬(store.state = StoreState.parsing ∨ store.state = StoreState.errorState) := by
  intro h
  rw [update, if_pos h] at hok
  cases hok

/-- C1: conflict rule of `update`.  First, the Conflict Resolver marks a
common pair for application of the incoming content exactly when the DB
unit's revision R satisfies R <= B for the caller-supplied baseline B.
Second, whenever R > B, a successful (conservative, non-overwrite)
`update` keeps the unit's whole record — content, revision, state and
index — unchanged in the resulting store. -/
theorem C1_conflict_rule :
    (∀ (B : Int) (common_pairs : List (Unit × FileUnit))
        (r : Unit × FileUnit × ResolveAction), r ∈ resolve common_pairs B →
        (r.2.2 = ResolveAction.applyIncoming ↔ (r.1.revision : Int) ≤ B)) ∧
    (∀ (store : Store) (F : List FileUnit) (B : Int) (c : Nat) (u : Unit)
        (st' : Store) (c' : Nat) (ch : Bool),
        (store.units.map (·.uid)).Nodup →
        u ∈ store.units →
        u.uid ∈ F.map (·.uid) →
        B < (u.revision : Int) →
        update store F B true false false c = .ok (st', c', ch) →
        u ∈ st'.units) := by
  constructor
  · intro B common_pairs r hr
    rcases resolve_mem.mp hr with ⟨p, hp, rfl⟩
    exact resolve_pair_iff
  · intro store F B c u st' c' ch hnd hu hmem hrev hok
    have hst := update_state_ok hok
    rw [update_eq_steps store F B true c hst] at hok
    have hst' : st' = ⟨(update_steps store.units F B true c).1, .parsed⟩ := by
      cases hok
      rfl
    subst hst'
    show u ∈ (update_steps store.units F B true c).1
    simp only [update_steps, if_pos rfl]
    refine apply_content_keep (List.mem_append_left _ ?_) ?_
    · -- u survives mark_obsolete untouched
      have hcond : ¬(u.uid ∈ (compute_diff store.units F B).obsolete_ids ∧
          u.state ≠ UnitState.obsolete) := by
        rintro ⟨hin, -⟩
        rcases obsolete_ids_mem.mp hin with ⟨v, -, -, hnm⟩
        exact hnm hmem
      exact List.mem_map.mpr ⟨u, hu, by rw [if_neg hcond]⟩
    · rintro r hr ⟨ha, hb⟩
      rcases resolve_mem.mp hr with ⟨p, hp, rfl⟩
      rcases common_mem.mp hp with ⟨hpdb, -⟩
      have : p.1 = u := nodup_uid_inj hnd hpdb hu hb
      rw [this] at ha
      have := resolve_pair_iff.mp ha
      omega

theorem C1_conflict_rule_witness :
    (((⟨['a'], ['a'], ['t'], UnitState.translated, 7, 0⟩, ⟨['a'], ['a'], ['z'], false⟩,
        ResolveAction.keepDb) ∈
      resolve [(⟨['a'], ['a'], ['t'], UnitState.translated, 7, 0⟩,
        (⟨['a'], ['a'], ['z'], false⟩ : FileUnit))] 5) ∧
     ¬(((7 : Nat) : Int) ≤ 5)) ∧
    ((⟨['a'], ['a'], ['t'], UnitState.translated, 7, 0⟩ : Unit) ∈
      ([⟨['a'], ['a'], ['t'], UnitState.translated, 7, 0⟩] : List Unit)) := by
  have h1 := (C1_conflict_rule).1 5
    [(⟨['a'], ['a'], ['t'], UnitState.translated, 7, 0⟩,
      (⟨['a'], ['a'], ['z'], false⟩ : FileUnit))]
    (⟨['a'], ['a'], ['t'], UnitState.translated, 7, 0⟩, ⟨['a'], ['a'], ['z'], false⟩,
      ResolveAction.keepDb) (by decide)
  have h2 := (C1_conflict_rule).2
    (Store.mk [⟨['a'], ['a'], ['t'], UnitState.translated, 7, 0⟩] StoreState.parsed)
    [⟨['a'], ['a'], ['z'], false⟩] 5 10
    ⟨['a'], ['a'], ['t'], UnitState.translated, 7, 0⟩
    (Store.mk [⟨['a'], ['a'], ['t'], UnitState.translated, 7, 0⟩] StoreState.parsed)
    10 false (by decide) (by decide) (by decide) (by decide) (by decide)
  exact ⟨⟨by decide, by decide⟩, h2⟩

lemma mark_obsolete_mem {us : List Unit} {ids : List Str} {v : Unit}
    (hv : v ∈ (mark_obsolete us ids).1) :
    ∃ u ∈ us, v.uid = u.uid ∧ v.target = u.target ∧ v.revision = u.revision ∧
      v.source = u.source ∧ v.index = u.index := by
  rcases List.mem_map.mp hv with ⟨u, hu, he⟩
  refine ⟨u, hu, ?_⟩
  by_cases hc : u.uid ∈ ids ∧ u.state ≠ UnitState.obsolete
  · rw [if_pos hc] at he
    subst he
    exact ⟨rfl, rfl, rfl, rfl, rfl⟩
  · rw [if_neg hc] at he
    subst he
    exact ⟨rfl, rfl, rfl, rfl, rfl⟩

lemma reorder_units_mem {us : List Unit} {ord : List Str} {v : Unit}
    (hv : v ∈ reorder_units us ord) :
    ∃ u ∈ us, v.uid = u.uid ∧ v.target = u.target ∧ v.revision = u.revision ∧
      v.source = u.source ∧ v.state = u.state := by
  rcases List.mem_map.mp hv with ⟨u, hu, he⟩
  refine ⟨u, hu, ?_⟩
  cases hidx : ord.findIdx? (fun x => x = u.uid) with
  | none =>
      rw [hidx] at he
      subst he
      exact ⟨rfl, rfl, rfl, rfl, rfl⟩
  | some i =>
      rw [hidx] at he
      subst he
      exact ⟨rfl, rfl, rfl, rfl, rfl⟩

lemma create_units_rev_le {specs : List FileUnit} {i c : Nat} {v : Unit}
    (hv : v ∈ (create_units specs i c).1) :
    v.revision ≤ (create_units specs i c).2 := by
  have hmem : v.revision ∈ (create_units specs i c).1.map (·.revision) :=
    List.mem_map.mpr ⟨v, hv, rfl⟩
  rw [create_units_revisions] at hmem
  rcases List.mem_range'.mp hmem with ⟨k, hk, he⟩
  rw [create_units_counter]
  omega

/-- C3: revision monotonicity of `update`.  Starting from a store whose
revisions are all bounded by the global counter, a successful update
only advances the counter, keeps every revision bounded by the new
counter, gives every unit record whose content was touched a revision
strictly greater than all previously issued values, and therefore every
unit identity whose revision changed got a strictly larger revision —
so N successive content-changing updates yield N strictly increasing
revisions. -/
theorem C3_revision_monotonicity (store : Store) (F : List FileUnit) (B : Int)
    (cons : Bool) (c : Nat) (st' : Store) (c' : Nat) (ch : Bool)
    (hwf : ∀ u ∈ store.units, u.revision ≤ c)
    (hnd : (store.units.map (·.uid)).Nodup)
    (hok : update store F B cons false false c = .ok (st', c', ch)) :
    c ≤ c' ∧
    (∀ v ∈ st'.units, v.revision ≤ c') ∧
    (∀ v ∈ st'.units,
      (∃ u ∈ store.units, v.uid = u.uid ∧ v.target = u.target ∧
        v.revision = u.revision) ∨ c < v.revision) ∧
    (∀ u ∈ store.units, ∀ v ∈ st'.units, v.uid = u.uid →
      v.revision ≠ u.revision → u.revision < v.revision) := by
  have hst := update_state_ok hok
  rw [update_eq_steps store F B cons c hst] at hok
  have hst' : st' = ⟨(update_steps store.units F B cons c).1, .parsed⟩ ∧
      c' = (update_steps store.units F B cons c).2.1 := by
    cases hok
    exact ⟨rfl, rfl⟩
  rcases hst' with ⟨h1, h2⟩
  subst h1
  subst h2
  simp only [update_steps]
  set d := compute_diff store.units F B with hd
  set R := resolve d.common B with hR
  set m := mark_obsolete store.units d.obsolete_ids with hm
  set u2 := if cons = true then m.1 else reorder_units m.1 (F.map (·.uid)) with hu2
  set cr := create_units d.new_units (next_index u2) c with hcr
  have hu2mem : ∀ v ∈ u2, ∃ u ∈ store.units,
      v.uid = u.uid ∧ v.target = u.target ∧ v.revision = u.revision := by
    intro v hv
    rw [hu2] at hv
    cases cons with
    | true =>
        simp only [if_pos rfl] at hv
        rcases mark_obsolete_mem hv with ⟨u, hu, ha, hb, hc2, -⟩
        exact ⟨u, hu, ha, hb, hc2⟩
    | false =>
        simp only [Bool.false_eq_true, if_neg] at hv
        rcases reorder_units_mem hv with ⟨w, hw, ha, hb, hc2, -⟩
        rcases mark_obsolete_mem hw with ⟨u, hu, ha2, hb2, hc3, -⟩
        exact ⟨u, hu, ha.trans ha2, hb.trans hb2, hc2.trans hc3⟩
  have hinput : ∀ v ∈ u2 ++ cr.1, v.revision ≤ cr.2 := by
    intro v hv
    rcases List.mem_append.mp hv with hv | hv
    · rcases hu2mem v hv with ⟨u, hu, -, -, hc2⟩
      calc v.revision = u.revision := hc2
        _ ≤ c := hwf u hu
        _ ≤ cr.2 := by rw [hcr, create_units_counter]; omega
    · exact create_units_rev_le hv
  have hcle : c ≤ cr.2 := by
    rw [hcr, create_units_counter]
    omega
  refine ⟨?_, ?_, ?_, ?_⟩
  · exact hcle.trans (apply_content_mono (u2 ++ cr.1) R cr.2)
  · exact apply_content_bound hinput
  · intro v hv
    rcases apply_content_mem hv with ⟨w, hw, -, hcase⟩
    rcases hcase with rfl | ⟨r, -, -, -, -, -, -, -, hlt⟩
    · rcases List.mem_append.mp hw with hw | hw
      · rcases hu2mem v hw with ⟨u, hu, ha, hb, hc2⟩
        exact Or.inl ⟨u, hu, ha, hb, hc2⟩
      · rcases create_units_mem hw with ⟨f, -, -, -, -, -, hlt2⟩
        exact Or.inr hlt2
    · exact Or.inr (Nat.lt_of_le_of_lt hcle hlt)
  · intro u hu v hv he hne
    have h3 : (∃ u0 ∈ store.units, v.uid = u0.uid ∧ v.target = u0.target ∧
        v.revision = u0.revision) ∨ c < v.revision := by
      rcases apply_content_mem hv with ⟨w, hw, -, hcase⟩
      rcases hcase with rfl | ⟨r, -, -, -, -, -, -, -, hlt⟩
      · rcases List.mem_append.mp hw with hw | hw
        · rcases hu2mem v hw with ⟨u0, hu0, ha, hb, hc2⟩
          exact Or.inl ⟨u0, hu0, ha, hb, hc2⟩
        · rcases create_units_mem hw with ⟨f, -, -, -, -, -, hlt2⟩
          exact Or.inr hlt2
      · exact Or.inr (Nat.lt_of_le_of_lt hcle hlt)
    rcases h3 with ⟨u0, hu0, ha, -, hc2⟩ | hlt
    · have : u0 = u := nodup_uid_inj hnd hu0 hu (by rw [← ha, he])
      subst this
      exact absurd hc2 hne
    · exact Nat.lt_of_le_of_lt (hwf u hu) hlt

theorem C3_revision_monotonicity_witness :
    ((∀ u ∈ (Store.mk [⟨['a'], ['a'], ['t'], UnitState.translated, 3, 0⟩]
        StoreState.parsed).units, u.revision ≤ 5) ∧
     ((Store.mk [⟨['a'], ['a'], ['t'], UnitState.translated, 3, 0⟩]
        StoreState.parsed).units.map (·.uid)).Nodup) ∧
    (5 ≤ 6 ∧
     (∀ v ∈ (Store.mk [⟨['a'], ['a'], ['z'], UnitState.translated, 6, 0⟩]
        StoreState.parsed).units, v.revision ≤ 6) ∧
     (∀ v ∈ (Store.mk [⟨['a'], ['a'], ['z'], UnitState.translated, 6, 0⟩]
        StoreState.parsed).units,
       (∃ u ∈ (Store.mk [⟨['a'], ['a'], ['t'], UnitState.translated, 3, 0⟩]
          StoreState.parsed).units, v.uid = u.uid ∧ v.target = u.target ∧
         v.revision = u.revision) ∨ 5 < v.revision) ∧
     (∀ u ∈ (Store.mk [⟨['a'], ['a'], ['t'], UnitState.translated, 3, 0⟩]
        StoreState.parsed).units,
      ∀ v ∈ (Store.mk [⟨['a'], ['a'], ['z'], UnitState.translated, 6, 0⟩]
        StoreState.parsed).units, v.uid = u.uid →
        v.revision ≠ u.revision → u.revision < v.revision)) :=
  ⟨⟨by decide, by decide⟩,
   C3_revision_monotonicity
     (Store.mk [⟨['a'], ['a'], ['t'], UnitState.translated, 3, 0⟩] StoreState.parsed)
     [⟨['a'], ['a'], ['z'], false⟩] 3 true 5
     (Store.mk [⟨['a'], ['a'], ['z'], UnitState.translated, 6, 0⟩] StoreState.parsed)
     6 true (by decide) (by decide) (by decide)⟩

lemma compute_diff_new (db : List Unit) (F : List FileUnit) (B : Int) :
    (compute_diff db F B).new_units =
      F.filter (fun f => f.uid ∉ db.map (·.uid)) := rfl

lemma mark_obsolete_uids (us : List Unit) (ids : List Str) :
    (mark_obsolete us ids).1.map (·.uid) = us.map (·.uid) := by
  simp only [mark_obsolete, List.map_map]
  refine List.map_congr_left (fun u hu => ?_)
  by_cases hc : u.uid ∈ ids ∧ u.state ≠ UnitState.obsolete
  · simp [Function.comp, if_pos hc, obsolete_unit]
  · simp [Function.comp, if_neg hc]

lemma new_units_uids_sublist (db : List Unit) (F : List FileUnit) (B : Int) :
    List.Sublist ((compute_diff db F B).new_units.map (·.uid)) (F.map (·.uid)) := by
  rw [compute_diff_new]
  exact (List.filter_sublist F).map _

lemma common_fst_uid_nodup {db : List Unit} {F : List FileUnit} {B : Int}
    (hdb : (db.map (·.uid)).Nodup) :
    ((compute_diff db F B).common.map (fun p => p.1.uid)).Nodup := by
  have h1 : ((compute_diff db F B).common.map (fun p => p.1.uid)) =
      (((compute_diff db F B).common.map Prod.fst).map (·.uid)) := by
    simp [List.map_map]
  rw [h1]
  exact ((common_fst_sublist db F B).map (·.uid)).nodup hdb

lemma resolve_uid_unique {common_pairs : List (Unit × FileUnit)} {B : Int}
    (h : (common_pairs.map (fun p => p.1.uid)).Nodup) :
    ∀ r1 ∈ resolve common_pairs B, ∀ r2 ∈ resolve common_pairs B,
      r1.1.uid = r2.1.uid → r1 = r2 := by
  intro r1 h1 r2 h2 he
  rcases resolve_mem.mp h1 with ⟨p1, hp1, rfl⟩
  rcases resolve_mem.mp h2 with ⟨p2, hp2, rfl⟩
  have : p1 = p2 := List.inj_on_of_nodup_map h hp1 hp2 he
  rw [this]

lemma mark_obsolete_noop {us : List Unit} {ids : List Str}
    (h : ∀ u ∈ us, u.uid ∈ ids → u.state = UnitState.obsolete) :
    mark_obsolete us ids = (us, false) := by
  unfold mark_obsolete
  simp only [Prod.mk.injEq]
  constructor
  · have h1 : us.map (fun u =>
        if u.uid ∈ ids ∧ u.state ≠ UnitState.obsolete then obsolete_unit u else u) =
        us.map (fun u => u) := by
      refine List.map_congr_left (fun u hu => ?_)
      have hc : ¬(u.uid ∈ ids ∧ u.state ≠ UnitState.obsolete) := by
        rintro ⟨hin, hne⟩
        exact hne (h u hu hin)
      rw [if_neg hc]
    rw [h1, List.map_id']
  · rw [decide_eq_false_iff_not]
    rintro ⟨u, hu, hin, hne⟩
    exact hne (h u hu hin)

lemma pipeline_post {units : List Unit} {F : List FileUnit} {B : Int} {c : Nat}
    {m1 crl : List Unit} {cr2 : Nat} {L : List Unit}
    (hdb : (units.map (·.uid)).Nodup) (hF : (F.map (·.uid)).Nodup)
    (hm1 : m1 = (mark_obsolete units (compute_diff units F B).obsolete_ids).1)
    (hcrl : crl = (create_units (compute_diff units F B).new_units
      (next_index m1) c).1)
    (hL : L = (apply_content (m1 ++ crl)
      (resolve (compute_diff units F B).common B) cr2).1) :
    (L.map (·.uid) = units.map (·.uid) ++
      (compute_diff units F B).new_units.map (·.uid)) ∧
    (L.map (·.uid)).Nodup ∧
    (∀ v ∈ L, v.uid ∉ F.map (·.uid) → v.state = UnitState.obsolete) ∧
    (∀ v ∈ L, ∀ f, F.find? (fun g => g.uid = v.uid) = some f →
      (v.target = f.target ∨ B < (v.revision : Int))) := by
  have hskel : L.map (·.uid) = units.map (·.uid) ++
      (compute_diff units F B).new_units.map (·.uid) := by
    rw [hL, apply_content_uids, List.map_append, hm1, hcrl,
      mark_obsolete_uids, create_units_uids]
  have hNnd : ((compute_diff units F B).new_units.map (·.uid)).Nodup :=
    (new_units_uids_sublist units F B).nodup hF
  have hdisj : List.Disjoint (units.map (·.uid))
      ((compute_diff units F B).new_units.map (·.uid)) := by
    intro x hx hx2
    rcases List.mem_map.mp hx2 with ⟨f, hfN, rfl⟩
    exact (new_units_mem.mp hfN).2 hx
  have hnd : (L.map (·.uid)).Nodup := by
    rw [hskel]
    exact List.nodup_append.mpr ⟨hdb, hNnd, hdisj⟩
  have hinnd : ((m1 ++ crl).map (·.uid)).Nodup := by
    rw [List.map_append, hm1, hcrl, mark_obsolete_uids, create_units_uids]
    exact List.nodup_append.mpr ⟨hdb, hNnd, hdisj⟩
  refine ⟨hskel, hnd, ?_, ?_⟩
  · intro v hv hnot
    rw [hL] at hv
    rcases apply_content_mem hv with ⟨w, hw, huid, hcase⟩
    rcases hcase with rfl | ⟨r, hr, -, hb, -, -, -, -, -⟩
    · rcases List.mem_append.mp hw with hw | hw
      · rw [hm1] at hw
        rcases List.mem_map.mp hw with ⟨u, hu, he⟩
        have huu : u.uid ∉ F.map (·.uid) := by
          by_cases hc : u.uid ∈ (compute_diff units F B).obsolete_ids ∧
              u.state ≠ UnitState.obsolete
          · rw [if_pos hc] at he
            rw [← he] at hnot
            exact hnot
          · rw [if_neg hc] at he
            rw [← he] at hnot
            exact hnot
        have hin : u.uid ∈ (compute_diff units F B).obsolete_ids :=
          obsolete_ids_mem.mpr ⟨u, hu, rfl, huu⟩
        by_cases hobs : u.state = UnitState.obsolete
        · have hc : ¬(u.uid ∈ (compute_diff units F B).obsolete_ids ∧
              u.state ≠ UnitState.obsolete) := by
            rintro ⟨-, hne⟩
            exact hne hobs
          rw [if_neg hc] at he
          rw [← he]
          exact hobs
        · have hc : u.uid ∈ (compute_diff units F B).obsolete_ids ∧
              u.state ≠ UnitState.obsolete := ⟨hin, hobs⟩
          rw [if_pos hc] at he
          rw [← he]
          rfl
      · rw [hcrl] at hw
        rcases create_units_mem hw with ⟨f0, hf0, huid0, -, -, -, -⟩
        have : v.uid ∈ F.map (·.uid) := by
          rw [huid0]
          exact List.mem_map.mpr ⟨f0, (new_units_mem.mp hf0).1, rfl⟩
        exact absurd this hnot
    · rcases resolve_mem.mp hr with ⟨p, hp, rfl⟩
      rcases common_mem.mp hp with ⟨-, hp2⟩
      have hfe := List.find?_some hp2
      simp only [decide_eq_true_eq] at hfe
      have : v.uid ∈ F.map (·.uid) := by
        have hmem := List.mem_of_find?_eq_some hp2
        refine List.mem_map.mpr ⟨p.2, hmem, ?_⟩
        rw [hfe, hb, ← huid]
      exact absurd this hnot
  · intro v hv f hfind
    have hvF : v.uid ∈ F.map (·.uid) := by
      have h1 := List.find?_some hfind
      simp only [decide_eq_true_eq] at h1
      exact List.mem_map.mpr ⟨f, List.mem_of_find?_eq_some hfind, h1⟩
    rw [hL] at hv
    rcases apply_content_mem hv with ⟨w, hw, huid, hcase⟩
    rcases hcase with rfl | ⟨r, hr, -, hb, -, -, htgt, -, -⟩
    · rcases List.mem_append.mp hw with hw | hw
      · rw [hm1] at hw
        rcases List.mem_map.mp hw with ⟨u, hu, he⟩
        have hcnot : ¬(u.uid ∈ (compute_diff units F B).obsolete_ids ∧
            u.state ≠ UnitState.obsolete) := by
          rintro ⟨hin, -⟩
          rcases obsolete_ids_mem.mp hin with ⟨u2, -, -, hnm⟩
          have : u.uid = v.uid := by
            by_cases hc : u.uid ∈ (compute_diff units F B).obsolete_ids ∧
                u.state ≠ UnitState.obsolete
            · rw [if_pos hc] at he
              rw [← he]
              rfl
            · rw [if_neg hc] at he
              rw [← he]
          rw [this] at hnm
          exact hnm hvF
        rw [if_neg hcnot] at he
        subst he
        have hp : (u, f) ∈ (compute_diff units F B).common := by
          refine common_mem.mpr ⟨hu, ?_⟩
          exact hfind
        by_cases hble : ((u.revision : Int)) ≤ B
        · have hact : resolve_pair B u = ResolveAction.applyIncoming :=
            resolve_pair_iff.mpr hble
          have hrR : (u, f, resolve_pair B u) ∈
              resolve (compute_diff units F B).common B :=
            resolve_mem.mpr ⟨(u, f), hp, rfl⟩
          have hRu := resolve_uid_unique (B := B)
            (common_fst_uid_nodup (F := F) (B := B) hdb)
          have hu_in : u ∈ m1 ++ crl := by
            refine List.mem_append_left _ ?_
            rw [hm1]
            exact List.mem_map.mpr ⟨u, hu, by rw [if_neg hcnot]⟩
          rcases apply_content_applied (c := cr2) hinnd hu_in hrR hact rfl hRu
            with ⟨v2, hv2, hv2uid, hv2tgt⟩
          have hresN : ((apply_content (m1 ++ crl)
              (resolve (compute_diff units F B).common B) cr2).1.map (·.uid)).Nodup := by
            rw [apply_content_uids]
            exact hinnd
          have hveq : v2 = u := nodup_uid_inj hresN hv2 hv hv2uid
          rw [hveq] at hv2tgt
          exact Or.inl hv2tgt
        · right
          omega
      · rw [hcrl] at hw
        rcases create_units_mem hw with ⟨f0, hf0, huid0, -, htgt0, -, -⟩
        have hf0F : f0 ∈ F := (new_units_mem.mp hf0).1
        have hfind0 : F.find? (fun g => g.uid = v.uid) = some f0 := by
          rw [huid0]
          exact find?_uid_unique hF hf0F
        rw [hfind] at hfind0
        have hfe : f = f0 := Option.some.inj hfind0
        rw [hfe]
        exact Or.inl htgt0
    · rcases resolve_mem.mp hr with ⟨p, hp, rfl⟩
      rcases common_mem.mp hp with ⟨-, hp2⟩
      have hpb : p.1.uid = v.uid := by rw [hb, ← huid]
      rw [hpb] at hp2
      rw [hfind] at hp2
      have hfp : f = p.2 := Option.some.inj hp2
      rw [hfp]
      exact Or.inl htgt

/-- C4: idempotence of `update`.  Per unit, incoming content that is
byte-identical to the current DB content causes no write and does not
count toward `count_changed`; and for every store with store-scoped
identity uniqueness on both sides, re-running a successful update with
the identical file units and the same baseline leaves the store and the
revision counter untouched and returns changed=false. -/
theorem C4_update_idempotence :
    (∀ (c : Nat) (u : Unit) (f : FileUnit), u.target = f.target →
      sync_unit c u f = (u, c, false)) ∧
    (∀ (store : Store) (F : List FileUnit) (B : Int) (c : Nat)
        (st1 : Store) (c1 : Nat) (ch : Bool),
      (store.units.map (·.uid)).Nodup →
      (F.map (·.uid)).Nodup →
      update store F B true false false c = .ok (st1, c1, ch) →
      update st1 F B true false false c1 = .ok (st1, c1, false)) := by
  constructor
  · intro c u f h
    simp [sync_unit, h]
  · intro store F B c st1 c1 ch hdb hF hok
    have hst := update_state_ok hok
    rw [update_eq_steps store F B true c hst] at hok
    have hu1 : st1.units = (update_steps store.units F B true c).1 := by
      cases hok
      rfl
    have hs1 : st1.state = StoreState.parsed := by
      cases hok
      rfl
    have hsteps : (update_steps store.units F B true c).1 =
        (apply_content
          ((mark_obsolete store.units (compute_diff store.units F B).obsolete_ids).1 ++
            (create_units (compute_diff store.units F B).new_units
              (next_index (mark_obsolete store.units
                (compute_diff store.units F B).obsolete_ids).1) c).1)
          (resolve (compute_diff store.units F B).common B)
          (create_units (compute_diff store.units F B).new_units
            (next_index (mark_obsolete store.units
              (compute_diff store.units F B).obsolete_ids).1) c).2).1 := rfl
    obtain ⟨hskel, hnd, hobs, htr⟩ :=
      pipeline_post (B := B) (c := c) hdb hF rfl rfl (hu1.trans hsteps)
    have hst1ok : ¬(st1.state = StoreState.parsing ∨
        st1.state = StoreState.errorState) := by
      rw [hs1]
      simp
    rw [update_eq_steps st1 F B true c1 hst1ok]
    have hO2 : mark_obsolete st1.units (compute_diff st1.units F B).obsolete_ids =
        (st1.units, false) := by
      refine mark_obsolete_noop (fun u hu hin => ?_)
      rcases obsolete_ids_mem.mp hin with ⟨u2, -, -, hnm⟩
      exact hobs u hu hnm
    have hN2 : (compute_diff st1.units F B).new_units = [] := by
      rw [compute_diff_new, List.filter_eq_nil_iff]
      intro f hf
      simp only [decide_not, Bool.not_eq_eq_eq_not, Bool.not_true,
        decide_eq_false_iff_not, not_not]
      by_cases hx : f.uid ∈ store.units.map (·.uid)
      · rw [hskel]
        exact List.mem_append_left _ hx
      · have hfnew : f ∈ (compute_diff store.units F B).new_units :=
          new_units_mem.mpr ⟨hf, hx⟩
        rw [hskel]
        exact List.mem_append_right _ (List.mem_map.mpr ⟨f, hfnew, rfl⟩)
    have hAC : apply_content st1.units
        (resolve (compute_diff st1.units F B).common B) c1 = (st1.units, c1, 0) := by
      refine apply_content_id (fun u hu r hr ha hb => ?_)
      rcases resolve_mem.mp hr with ⟨p, hp, rfl⟩
      rcases common_mem.mp hp with ⟨hp1, hp2⟩
      have hpu : p.1 = u := nodup_uid_inj hnd hp1 hu hb
      rw [hpu] at hp2 ha
      rcases htr u hu p.2 hp2 with htgt | hgt
      · exact htgt
      · exfalso
        have hle := resolve_pair_iff.mp ha
        omega
    have hkey : update_steps st1.units F B true c1 = (st1.units, c1, false) := by
      simp only [update_steps, hO2, hN2, create_units, List.append_nil, hAC]
      simp [hAC]
    rw [hkey]
    have hSt : (⟨st1.units, StoreState.parsed⟩ : Store) = st1 := by
      cases st1 with
      | mk us ss =>
          have hss : ss = StoreState.parsed := hs1
          rw [hss]
    rw [hSt]

theorem C4_update_idempotence_witness :
    (((Store.mk [⟨['a'], ['a'], ['o'], UnitState.translated, 3, 0⟩,
        ⟨['z'], ['z'], ['q'], UnitState.translated, 9, 1⟩]
        StoreState.parsed).units.map (·.uid)).Nodup ∧
     (([⟨['a'], ['a'], ['x'], false⟩, ⟨['b'], ['b'], ['y'], false⟩] :
        List FileUnit).map (·.uid)).Nodup) ∧
    update
      (Store.mk [⟨['a'], ['a'], ['x'], UnitState.translated, 12, 0⟩,
        ⟨['z'], ['z'], ['q'], UnitState.obsolete, 9, 1⟩,
        ⟨['b'], ['b'], ['y'], UnitState.translated, 11, 2⟩] StoreState.parsed)
      [⟨['a'], ['a'], ['x'], false⟩, ⟨['b'], ['b'], ['y'], false⟩]
      5 true false false 12 =
      .ok (Store.mk [⟨['a'], ['a'], ['x'], UnitState.translated, 12, 0⟩,
        ⟨['z'], ['z'], ['q'], UnitState.obsolete, 9, 1⟩,
        ⟨['b'], ['b'], ['y'], UnitState.translated, 11, 2⟩] StoreState.parsed,
        12, false) :=
  ⟨⟨by decide, by decide⟩,
   C4_update_idempotence.2
     (Store.mk [⟨['a'], ['a'], ['o'], UnitState.translated, 3, 0⟩,
        ⟨['z'], ['z'], ['q'], UnitState.translated, 9, 1⟩] StoreState.parsed)
     [⟨['a'], ['a'], ['x'], false⟩, ⟨['b'], ['b'], ['y'], false⟩]
     5 10
     (Store.mk [⟨['a'], ['a'], ['x'], UnitState.translated, 12, 0⟩,
        ⟨['z'], ['z'], ['q'], UnitState.obsolete, 9, 1⟩,
        ⟨['b'], ['b'], ['y'], UnitState.translated, 11, 2⟩] StoreState.parsed)
     12 true (by decide) (by decide) (by decide)⟩

/-- Modelled from the spec: the canonical form a unit record takes
after a parse round-trip: the identity hash is (re)derived from the
source content; source, target and fuzzy flag are preserved. -/
def canon (u : FileUnit) : FileUnit :=
  ⟨u.source, u.source, u.target, u.fuzzy⟩

lemma splitLinesGo_append {s r cur : Str} (h : '\n' ∉ s) :
    splitLinesGo (s ++ '\n' :: r) cur =
      (splitLinesGo r []).map (fun ls => (cur ++ s) :: ls) := by
  induction s generalizing cur with
  | nil => simp [splitLinesGo]
  | cons a s ih =>
      simp only [List.mem_cons, not_or] at h
      have ha : ¬(a = '\n') := fun he => h.1 he.symm
      simp only [List.cons_append, splitLinesGo, if_neg ha, List.append_eq]
      rw [ih h.2]
      simp [List.append_assoc]

lemma deserialize_serialize {us : List FileUnit}
    (h : ∀ u ∈ us, '\n' ∉ u.source ∧ '\n' ∉ u.target) :
    deserialize (serialize us) = some (us.map canon) := by
  induction us with
  | nil => rfl
  | cons u us ih =>
      obtain ⟨h1, h2⟩ := h u (List.mem_cons_self u us)
      have hc : '\n' ∉ [(if u.fuzzy then 'f' else 'n')] := by
        cases hb : u.fuzzy <;> simp
      have hshape : serialize (u :: us) =
          [(if u.fuzzy then 'f' else 'n')] ++ '\n' ::
            (u.source ++ '\n' :: (u.target ++ '\n' :: serialize us)) := by
        simp [serialize, List.append_assoc]
      have hsplit : splitLinesGo (serialize (u :: us)) [] =
          (splitLinesGo (serialize us) []).map
            (fun ls => [(if u.fuzzy then 'f' else 'n')] :: u.source :: u.target :: ls) := by
        rw [hshape, splitLinesGo_append hc, splitLinesGo_append h1,
          splitLinesGo_append h2]
        simp only [Option.map_map]
        rfl
      have hgroup : ∀ ls : List Str,
          groupUnits ([(if u.fuzzy then 'f' else 'n')] :: u.source :: u.target :: ls) =
            (groupUnits ls).map (fun vs => canon u :: vs) := by
        intro ls
        cases hb : u.fuzzy <;> simp [groupUnits, canon, hb]
      have ihs := ih (fun w hw => h w (List.mem_cons_of_mem u hw))
      rw [deserialize, hsplit]
      rw [deserialize] at ihs
      cases hsg : splitLinesGo (serialize us) [] with
      | none =>
          rw [hsg] at ihs
          simp at ihs
      | some lines =>
          rw [hsg] at ihs
          simp only [Option.map_some', Option.some_bind] at ihs ⊢
          rw [hgroup lines, ihs]
          simp

lemma serialize_canon (us : List FileUnit) :
    serialize (us.map canon) = serialize us := by
  induction us with
  | nil => rfl
  | cons u us ih =>
      simp [serialize, canon] at ih ⊢
      exact ih

/-- C7: serialization round-trip.  For every well-formed minimal file
with two units (no embedded newline in any source or target),
deserializing the file bytes and serializing the result reproduces the
original bytes exactly. -/
theorem C7_serialize_round_trip (u1 u2 : FileUnit)
    (h1 : '\n' ∉ u1.source) (h2 : '\n' ∉ u1.target)
    (h3 : '\n' ∉ u2.source) (h4 : '\n' ∉ u2.target) :
    ∃ us, deserialize (serialize [u1, u2]) = some us ∧
      serialize us = serialize [u1, u2] := by
  refine ⟨[u1, u2].map canon, ?_, serialize_canon [u1, u2]⟩
  refine deserialize_serialize (fun u hu => ?_)
  rcases List.mem_cons.mp hu with rfl | hu
  · exact ⟨h1, h2⟩
  · rcases List.mem_cons.mp hu with rfl | hu
    · exact ⟨h3, h4⟩
    · cases hu

theorem C7_serialize_round_trip_witness :
    (('\n' ∉ (⟨['a'], ['a'], ['x'], false⟩ : FileUnit).source) ∧
     ('\n' ∉ (⟨['a'], ['a'], ['x'], false⟩ : FileUnit).target) ∧
     ('\n' ∉ (⟨['b'], ['b'], ['y'], true⟩ : FileUnit).source) ∧
     ('\n' ∉ (⟨['b'], ['b'], ['y'], true⟩ : FileUnit).target)) ∧
    (∃ us, deserialize (serialize [(⟨['a'], ['a'], ['x'], false⟩ : FileUnit),
        ⟨['b'], ['b'], ['y'], true⟩]) = some us ∧
      serialize us = serialize [(⟨['a'], ['a'], ['x'], false⟩ : FileUnit),
        ⟨['b'], ['b'], ['y'], true⟩]) :=
  ⟨⟨by decide, by decide, by decide, by decide⟩,
   C7_serialize_round_trip ⟨['a'], ['a'], ['x'], false⟩ ⟨['b'], ['b'], ['y'], true⟩
     (by decide) (by decide) (by decide) (by decide)⟩

/-- C9: superuser bypass.  `check_user_permission` returns true for
every superuser, every permission codename and every directory, and
`check_permission` returns true for every request made by a superuser —
in both cases for every possible stored-permission environment
(`lookup` / `accessible`), i.e. without consulting any stored
PermissionSet. -/
theorem C9_superuser_bypass :
    (∀ (lookup : String → String → Option (List String)) (user : User)
        (permission_codename directory : String),
      user.is_superuser = true →
      check_user_permission lookup user permission_codename directory = true) ∧
    (∀ (accessible : String → User → Bool) (permission_codename : String)
        (request : Request),
      request.user.is_superuser = true →
      check_permission accessible permission_codename request = true) := by
  constructor
  · intro lookup user pc dir h
    simp [check_user_permission, h]
  · intro accessible pc request h
    simp [check_permission, h]

theorem C9_superuser_bypass_witness :
    ((User.mk true true "root").is_superuser = true ∧
     check_user_permission (fun _ _ => none) (User.mk true true "root")
       "administrate" "/projects/p/" = true) ∧
    ((Request.mk (User.mk true true "root") [] none none).user.is_superuser = true ∧
     check_permission (fun _ _ => false) "view"
       (Request.mk (User.mk true true "root") [] none none) = true) :=
  ⟨⟨rfl, C9_superuser_bypass.1 (fun _ _ => none) (User.mk true true "root")
      "administrate" "/projects/p/" rfl⟩,
   ⟨rfl, C9_superuser_bypass.2 (fun _ _ => false) "view"
      (Request.mk (User.mk true true "root") [] none none) rfl⟩⟩

/-- C10: `get_change_str` returns the ", "-joined list of "key count"
entries for exactly the keys with positive values, in iteration order;
when no value is positive it returns the literal string "no changed"
(not "nothing changed" as the docstring says). -/
theorem C10_get_change_str (changes : List (String × Int)) :
    ((∀ kv ∈ changes, kv.2 ≤ 0) → get_change_str changes = "no changed") ∧
    ((∃ kv ∈ changes, kv.2 > 0) →
      get_change_str changes = String.intercalate ", "
        ((changes.filter (fun kv => kv.2 > 0)).map
          (fun kv => kv.1 ++ " " ++ toString kv.2))) := by
  constructor
  · intro h
    have hf : changes.filter (fun kv => kv.2 > 0) = [] := by
      rw [List.filter_eq_nil_iff]
      intro kv hkv
      simp only [decide_eq_true_eq, gt_iff_lt, not_lt]
      exact h kv hkv
    simp [get_change_str, hf]
  · rintro ⟨kv, hkv, hpos⟩
    have hmem : kv ∈ changes.filter (fun kv => kv.2 > 0) :=
      List.mem_filter.mpr ⟨hkv, by simpa using hpos⟩
    have hne : (changes.filter (fun kv => kv.2 > 0)).map
        (fun kv => kv.1 ++ " " ++ toString kv.2) ≠ [] := by
      simp only [ne_eq, List.map_eq_nil_iff]
      intro hnil
      rw [hnil] at hmem
      cases hmem
    simp only [get_change_str]
    rw [if_pos hne]

theorem C10_get_change_str_witness :
    ((∀ kv ∈ ([("del", 0), ("fix", -2)] : List (String × Int)), kv.2 ≤ 0) ∧
     get_change_str [("del", 0), ("fix", -2)] = "no changed") ∧
    ((∃ kv ∈ ([("add", 2), ("del", 0), ("mod", 1)] : List (String × Int)), kv.2 > 0) ∧
     get_change_str [("add", 2), ("del", 0), ("mod", 1)] =
       String.intercalate ", "
         ((([("add", 2), ("del", 0), ("mod", 1)] : List (String × Int)).filter
           (fun kv => kv.2 > 0)).map (fun kv => kv.1 ++ " " ++ toString kv.2))) :=
  ⟨⟨by decide, (C10_get_change_str [("del", 0), ("fix", -2)]).1 (by decide)⟩,
   ⟨by decide, (C10_get_change_str [("add", 2), ("del", 0), ("mod", 1)]).2 (by decide)⟩⟩

end Zing
